import Mathlib

/-!
Verification of the tensor-name classification and transcoder-assembly logic of
build_tiny_transcoder.py (TinyLatentModels repository).

Python strings are modelled as lists of characters (ASCII fragment), Python
dicts as association lists with insertion-order semantics: assigning to an
existing key overwrites its value in place (keeping its position), assigning a
fresh key appends it.  Tensor values are modelled by an explicit inductive type
carrying the numeric payload as rationals; numeric rounding performed by numpy
dtype conversion is outside the scope of the claims checked here.
-/

namespace TLM

/-- A Python string, modelled as its list of characters. -/
abbrev Str := List Char

/-- Python str.startswith: the second argument is a prefix of the first. -/
def strStartsWith (s pat : Str) : Bool := List.isPrefixOf pat s

/-- Python str.endswith: the second argument is a suffix of the first. -/
def strEndsWith (s pat : Str) : Bool := List.isSuffixOf pat s

/-- Python substring test (the operator sub in s). -/
def strContains (s sub : Str) : Bool :=
  match s with
  | [] => sub.isEmpty
  | c :: t => List.isPrefixOf sub (c :: t) || strContains t sub

/-- Python str.lower on the ASCII fragment. -/
def lowerStr (s : Str) : Str := s.map Char.toLower

/-- Python os.path.basename on a posix path: everything after the last slash. -/
def basename (p : Str) : Str :=
  p.foldl (fun acc c => if c = '/' then [] else acc ++ [c]) []

/-- Index of the last dot of a string, if any. -/
def lastDotIdx (s : Str) : Option Nat :=
  (List.range s.length).foldl (fun acc i => if s.get? i = some '.' then some i else acc) none

/-- The root part of Python os.path.splitext for a slash-free name: the last
extension is split off only if some character before the last dot is not a
dot itself (so dotfiles keep their name). -/
def splitextRoot (s : Str) : Str :=
  match lastDotIdx s with
  | none => s
  | some d => if (List.range d).any (fun i => decide (s.get? i ≠ some '.')) then s.take d else s

/-- Python s.split(sep, 1) for a one-character separator: the part before the
first dot and, when a dot exists, the remaining characters after it. -/
def splitFirst : Str → Str × Option Str
  | [] => ([], none)
  | c :: rest =>
    if c = '.' then ([], some rest)
    else
      let p := splitFirst rest
      (c :: p.1, p.2)

/-- Python str.isdecimal on the ASCII fragment: nonempty and all digits. -/
def isdecimal (s : Str) : Bool :=
  !s.isEmpty && s.all (fun c => decide ('0' ≤ c ∧ c ≤ '9'))

/-- Python int(...) on an all-digit string. -/
def pyInt (s : Str) : Nat :=
  s.foldl (fun a c => a * 10 + (c.toNat - 48)) 0

/-- Decimal digits of a natural number, most significant first; the first
argument is recursion fuel (any fuel above the number itself is enough). -/
def decDigitsAux : Nat → Nat → List Char
  | 0, _ => []
  | fuel + 1, n =>
    if n < 10 then [Char.ofNat (48 + n)]
    else decDigitsAux fuel (n / 10) ++ [Char.ofNat (48 + n % 10)]

/-- Decimal rendering of a natural number. -/
def decRepr (n : Nat) : Str := decDigitsAux (n + 1) n

/-- Python str(int): decimal rendering of an integer with a sign for negatives. -/
def intRepr (i : Int) : Str :=
  if i < 0 then '-' :: decRepr i.natAbs else decRepr i.toNat

/-- Python slice s[:-n] (note that n = 0 yields the empty string, not s). -/
def pySliceDropRight (s : Str) (n : Nat) : Str :=
  if n = 0 then [] else s.take (s.length - n)

/-- Little-endian unsigned 64-bit decode of the first eight bytes
(struct.unpack of the format <Q). -/
def le64 (bs : List Nat) : Nat :=
  (bs.take 8).foldr (fun b acc => b + 256 * acc) 0

/-- Element dtypes that the tool distinguishes (numpy float16/float32). -/
inductive Dtype
  | f16
  | f32
deriving DecidableEq

/-- A tensor value: a numpy array with a dtype tag and rational payload, or a
non-array entry (the dtype-conversion step treats the two differently). -/
inductive Value
  | arr (dt : Dtype) (data : List ℚ)
  | raw (n : Nat)
deriving DecidableEq

/-- numpy ndarray.astype: retags an array, leaves non-arrays unchanged
(numeric rounding is not modelled). -/
def astype (dt : Dtype) : Value → Value
  | .arr _ xs => .arr dt xs
  | .raw n => .raw n

/-- A Python dict of tensors: an insertion-ordered association list whose keys
are unique for any dict actually built by the program. -/
abbrev TensorSet := List (Str × Value)

/-- The key list of a tensor set, in iteration order. -/
def keysOf (d : TensorSet) : List Str := d.map Prod.fst

/-- Python dict assignment d[k] = v: overwrite in place if the key exists
(keeping its position), append otherwise. -/
def dictInsert (d : TensorSet) (k : Str) (v : Value) : TensorSet :=
  if k ∈ keysOf d then d.map (fun p => if p.1 = k then (k, v) else p)
  else d ++ [(k, v)]

/-- Python dict merge of two dicts with distinct key sets or not:
entries of the second are assigned over a copy of the first. -/
def pyDictMerge (a b : TensorSet) : TensorSet :=
  b.foldl (fun acc kv => dictInsert acc kv.1 kv.2) a

/-- The four latent formats of SCALE_AND_SHIFT_BY_LATENT_FORMAT. -/
inductive LatentFormat
  | sd
  | sdxl
  | sd3
  | f1
deriving DecidableEq

/-- scale_factor/shift_factor table, keyed by latent format (source constant
SCALE_AND_SHIFT_BY_LATENT_FORMAT; the decimal literals 0.18215, 0.13025,
1.5305/0.0609 and 0.3611/0.1159 are written as explicit fractions). -/
def SCALE_AND_SHIFT_BY_LATENT_FORMAT : LatentFormat → ℚ × ℚ
  | .sd => (mkRat 18215 100000, 0)
  | .sdxl => (mkRat 13025 100000, 0)
  | .sd3 => (mkRat 15305 10000, mkRat 609 10000)
  | .f1 => (mkRat 3611 10000, mkRat 1159 10000)

/-- get_safetensors_header: the file is a byte list; jk models json.loads
restricted to the tensor names of the decoded mapping, returning none when
decoding raises.  All failure modes produce the empty result. -/
def get_safetensors_header (jk : List Nat → Option (List Str)) (file : List Nat)
    (size_limit : Nat) : List Str :=
  if file.length < 8 then []
  else if size_limit < le64 (file.take 8) then []
  else
    match jk ((file.drop 8).take (le64 (file.take 8))) with
    | some h => h
    | none => []

/-- get_tensor_prefix: first key ending with the given suffix and (when an
exclusion substring is given) not containing it, with the suffix removed by
the Python slice key[:-len(suffix)]; empty string when no key matches. -/
def get_tensor_prefix (names : List Str) (sfx : Str) (not_containing : Option Str) : Str :=
  match names with
  | [] => []
  | k :: rest =>
    if strEndsWith k sfx then
      match not_containing with
      | some nc =>
        if strContains k nc then get_tensor_prefix rest sfx not_containing
        else pySliceDropRight k sfx.length
      | none => pySliceDropRight k sfx.length
    else get_tensor_prefix rest sfx not_containing

/-- Normalization applied by load_tensors to both of its prefixes: a nonempty
one that does not end with a dot gets a dot appended. -/
def pfxNorm (p : Str) : Str :=
  if p.isEmpty = false ∧ strEndsWith p ['.'] = false then p ++ ['.'] else p

/-- load_tensors: the safetensors file is modelled by its tensor dict; every
key starting with the normalized source namespace is kept, re-keyed under the
normalized target namespace. -/
def load_tensors (file : TensorSet) (pfx : Str) (target_pfx : Str) : TensorSet :=
  file.foldl
    (fun acc kv =>
      if strStartsWith kv.1 (pfxNorm pfx) then
        dictInsert acc (pfxNorm target_pfx ++ kv.1.drop (pfxNorm pfx).length) kv.2
      else acc)
    []

/-- The key rewrite performed by one iteration of the shift_layers loop. -/
def shiftKey (layer_pfx : Str) (layer_offset : Int) (key : Str) : Str :=
  if strStartsWith key layer_pfx then
    if isdecimal (splitFirst (key.drop layer_pfx.length)).1 then
      layer_pfx ++ intRepr ((pyInt (splitFirst (key.drop layer_pfx.length)).1 : Int) + layer_offset)
        ++ (match (splitFirst (key.drop layer_pfx.length)).2 with
            | some r => '.' :: r
            | none => [])
    else key
  else key

/-- shift_layers: rebuild the dict entry by entry, re-addressing the keys under
the layer namespace whose next dot-separated segment is decimal. -/
def shift_layers (sd : TensorSet) (layer_pfx : Str) (layer_offset : Int) : TensorSet :=
  sd.foldl (fun acc kv => dictInsert acc (shiftKey layer_pfx layer_offset kv.1) kv.2) []

/-- is_taesd: fingerprint classification over the tensor names (the source
function reads only the keys of its dict argument). -/
def is_taesd (names : List Str) : Bool :=
  if "3.conv.4.bias".data ∈ names ∧ "8.conv.0.weight".data ∈ names then true
  else if "decoder.layers.3.conv.4.bias".data ∈ names ∧
      "decoder.layers.8.conv.0.weight".data ∈ names then true
  else if "encoder.layers.4.conv.4.bias".data ∈ names ∧
      "encoder.layers.8.conv.0.weight".data ∈ names then true
  else
    names.any (fun k =>
      strStartsWith k "taesd".data || strStartsWith k "taesdxl".data ||
      strStartsWith k "taesd3".data || strStartsWith k "taef1".data)

/-- The two roles accepted by the role classifier (the source asserts that the
role argument is one of these words). -/
inductive Role
  | encoder
  | decoder
deriving DecidableEq

/-- The literal substring the classifier looks for (ENCODER_TENSOR_SUBNAMES). -/
def roleWord : Role → Str
  | .encoder => "encoder".data
  | .decoder => "decoder".data

/-- is_taesd_with_role: family check first, then a content scan for the role
word among the keys, then the filename fallback on the lowercased base name
with its extension stripped. -/
def is_taesd_with_role (file_path : Str) (names : List Str) (role : Role) : Bool :=
  if names.isEmpty || !is_taesd names then false
  else if names.any (fun k => strContains k (roleWord role)) then true
  else strContains (lowerStr (splitextRoot (basename file_path))) (roleWord role)

/-- Source constant DECODER_PREFIX. -/
def DECODER_NS : Str := "transd.".data

/-- Source constant ENCODER_PREFIX. -/
def ENCODER_NS : Str := "transe.".data

/-- Source constant XBRIDGE_PREFIX. -/
def XBRIDGE_NS : Str := "transx.".data

/-- Source constant INPUT_EMULATION_PREFIX. -/
def IN_EMU_NS : Str := "in_emu.".data

/-- Source constant OUTPUT_EMULATION_PREFIX. -/
def OUT_EMU_NS : Str := "out_emu.".data

/-- insert_xbridge_layer: dict update with the blur-sigma scalar (in the source
an in-place update of the caller's dict; modelled by returning the updated
dict state). -/
def insert_xbridge_layer (sd : TensorSet) (gaussian_blur_sigma : ℚ) (target_pfx : Str)
    (dt : Dtype) : TensorSet :=
  dictInsert sd (target_pfx ++ "gaussian_blur_sigma".data) (Value.arr dt [gaussian_blur_sigma])

/-- insert_emulation_layer: two successive dict updates with the scale and
shift scalars (in the source in-place updates of the caller's dict; modelled
by returning the updated dict state). -/
def insert_emulation_layer (sd : TensorSet) (scale_factor shift_factor : ℚ)
    (target_pfx : Str) (dt : Dtype) : TensorSet :=
  dictInsert
    (dictInsert sd (target_pfx ++ "scale_factor".data) (Value.arr dt [scale_factor]))
    (target_pfx ++ "shift_factor".data) (Value.arr dt [shift_factor])

/-- build_tiny_transcoder: load both sources under their reserved namespaces,
merge, shift the decoder layers by one when the invalid layer-0 key is
present, optionally add the bridge scalar (skipped for a zero or absent blur
sigma, mirroring Python truthiness), optionally add the two emulation pairs,
and finally retag dtypes.  File access is modelled by passing each file's
tensor dict directly. -/
def build_tiny_transcoder (encFile : TensorSet) (encPfx : Str) (decFile : TensorSet)
    (decPfx : Str) (input_latent_format output_latent_format : LatentFormat)
    (xbridge_gaussian_blur_sigma : Option ℚ) (include_decoderencoder_emulation : Bool)
    (dtype : Option Dtype) : TensorSet :=
  let encoder_tensors := load_tensors encFile encPfx ENCODER_NS
  let decoder_tensors := load_tensors decFile decPfx DECODER_NS
  let t0 := pyDictMerge encoder_tensors decoder_tensors
  let t1 :=
    if (DECODER_NS ++ "0.weight".data) ∈ keysOf t0 then shift_layers t0 DECODER_NS 1 else t0
  let t2 :=
    match xbridge_gaussian_blur_sigma with
    | some s => if s = 0 then t1 else insert_xbridge_layer t1 s XBRIDGE_NS Dtype.f32
    | none => t1
  let t3 :=
    if include_decoderencoder_emulation then
      insert_emulation_layer
        (insert_emulation_layer t2 (SCALE_AND_SHIFT_BY_LATENT_FORMAT input_latent_format).1
          (SCALE_AND_SHIFT_BY_LATENT_FORMAT input_latent_format).2 IN_EMU_NS Dtype.f32)
        (SCALE_AND_SHIFT_BY_LATENT_FORMAT output_latent_format).1
        (SCALE_AND_SHIFT_BY_LATENT_FORMAT output_latent_format).2 OUT_EMU_NS Dtype.f32
    else t2
  match dtype with
  | some dt => t3.map (fun kv => (kv.1, astype dt kv.2))
  | none => t3

/-- Encoder source file of the end-to-end scenario: one tensor whose name
carries the family stem and the encoder role word. -/
def c7EncFile : TensorSet := [("taesdxl_encoder.3.conv.4.bias".data, Value.arr Dtype.f32 [1])]

/-- Decoder source file of the end-to-end scenario: the diffusers-convention
fingerprint pair. -/
def c7DecFile : TensorSet :=
  [("decoder.layers.8.conv.0.weight".data, Value.arr Dtype.f32 [2]),
    ("decoder.layers.3.conv.4.bias".data, Value.arr Dtype.f32 [3])]

/-- End-to-end assembly: prefixes resolved exactly as find_taesd_with_role does
(anchor .3.conv.4.bias, excluding the opposite role word), emulation enabled,
no blur sigma, no dtype conversion. -/
def c7Result (fin fout : LatentFormat) : TensorSet :=
  build_tiny_transcoder c7EncFile
    ( get_tensor_prefix (keysOf c7EncFile) ".3.conv.4.bias".data (some (roleWord Role.decoder)))
    c7DecFile
    ( get_tensor_prefix (keysOf c7DecFile) ".3.conv.4.bias".data (some (roleWord Role.encoder)))
    fin fout none true none

end TLM

namespace TLM

/-! ### Basic dictionary lemmas -/

theorem keysOf_append (a b : TensorSet) : keysOf (a ++ b) = keysOf a ++ keysOf b :=
  List.map_append _ _ _

theorem dictInsert_of_not_mem {d : TensorSet} {k : Str} {v : Value} (h : k ∉ keysOf d) :
    dictInsert d k v = d ++ [(k, v)] := by
  unfold dictInsert
  rw [if_neg h]

theorem keysOf_replace (d : TensorSet) (k : Str) (v : Value) :
    keysOf (d.map (fun p => if p.1 = k then (k, v) else p)) = keysOf d := by
  unfold keysOf
  rw [List.map_map]
  apply List.map_congr_left
  intro p _
  by_cases hh : p.1 = k
  · simp [Function.comp, hh]
  · simp [Function.comp, hh]

theorem mem_keysOf_dictInsert {d : TensorSet} {k : Str} {v : Value} {m : Str} :
    m ∈ keysOf (dictInsert d k v) ↔ m ∈ keysOf d ∨ m = k := by
  unfold dictInsert
  split_ifs with h
  · rw [keysOf_replace]
    constructor
    · exact Or.inl
    · rintro (hm | rfl)
      · exact hm
      · exact h
  · rw [keysOf_append]
    show m ∈ keysOf d ++ [k] ↔ _
    rw [List.mem_append, List.mem_singleton]

theorem mem_dictInsert_of_ne {d : TensorSet} {k : Str} {v : Value} {m : Str} {w : Value}
    (hne : m ≠ k) : (m, w) ∈ dictInsert d k v ↔ (m, w) ∈ d := by
  unfold dictInsert
  split_ifs with h
  · rw [List.mem_map]
    constructor
    · rintro ⟨p, hp, hpe⟩
      by_cases hpk : p.1 = k
      · rw [if_pos hpk] at hpe
        injection hpe with h1 h2
        exact absurd h1.symm hne
      · rw [if_neg hpk] at hpe
        rw [← hpe]
        exact hp
    · intro hm
      exact ⟨(m, w), hm, by simp [hne]⟩
  · rw [List.mem_append]
    constructor
    · rintro (hm | hm)
      · exact hm
      · rcases List.mem_singleton.mp hm with he
        injection he with h1 h2
        exact absurd h1 hne
    · exact fun hm => Or.inl hm

theorem self_mem_dictInsert (d : TensorSet) (k : Str) (v : Value) :
    (k, v) ∈ dictInsert d k v := by
  unfold dictInsert
  split_ifs with h
  · unfold keysOf at h
    obtain ⟨p, hp, hpk⟩ := List.mem_map.mp h
    exact List.mem_map.mpr ⟨p, hp, by rw [if_pos hpk]⟩
  · exact List.mem_append.mpr (Or.inr (List.mem_singleton.mpr rfl))

theorem aux_is_taesd_nil : is_taesd ([] : List Str) = false := by decide

theorem aux_bool_eq_false {b : Bool} (h : ¬b = true) : b = false := by
  cases b
  · rfl
  · exact absurd rfl h

/-! ### C1: family classification -/

/-- C1.  Family classification is sound and complete for the three structural
fingerprints: is_taesd answers true exactly when the tensor-name set contains
the compact-architecture anchor pair, one of the two diffusers-convention
anchor pairs under the decoder.layers/encoder.layers namespaces, or a key
beginning with one of the family name stems taesd/taesdxl/taesd3/taef1 (a key
begins with a dot-free stem exactly when its top-level segment does). -/
theorem is_taesd_fingerprint_characterization (names : List Str) :
    is_taesd names = true ↔
      ("3.conv.4.bias".data ∈ names ∧ "8.conv.0.weight".data ∈ names) ∨
      ("decoder.layers.3.conv.4.bias".data ∈ names ∧
        "decoder.layers.8.conv.0.weight".data ∈ names) ∨
      ("encoder.layers.4.conv.4.bias".data ∈ names ∧
        "encoder.layers.8.conv.0.weight".data ∈ names) ∨
      (∃ k ∈ names, strStartsWith k "taesd".data = true ∨ strStartsWith k "taesdxl".data = true ∨
        strStartsWith k "taesd3".data = true ∨ strStartsWith k "taef1".data = true) := by
  unfold is_taesd
  split_ifs with h1 h2 h3
  · exact iff_of_true rfl (Or.inl h1)
  · exact iff_of_true rfl (Or.inr (Or.inl h2))
  · exact iff_of_true rfl (Or.inr (Or.inr (Or.inl h3)))
  · rw [List.any_eq_true]
    constructor
    · rintro ⟨k, hk, hor⟩
      refine Or.inr (Or.inr (Or.inr ⟨k, hk, ?_⟩))
      simp only [Bool.or_eq_true] at hor
      tauto
    · rintro (h | h | h | ⟨k, hk, hor⟩)
      · exact absurd h h1
      · exact absurd h h2
      · exact absurd h h3
      · refine ⟨k, hk, ?_⟩
        simp only [Bool.or_eq_true]
        tauto

/-! ### C2: role classification is content-first, filename-second -/

/-- C2.  For a family-member tensor-name set: if some key contains the role
word, the classifier answers true regardless of the file name; if no key
contains the role word, it answers true exactly when the lowercased base name
of the file (extension stripped) contains the role word. -/
theorem is_taesd_with_role_content_first (fp : Str) (names : List Str) (role : Role)
    (hfam : is_taesd names = true) :
    ((∃ k ∈ names, strContains k (roleWord role) = true) →
      is_taesd_with_role fp names role = true) ∧
    ((∀ k ∈ names, strContains k (roleWord role) = false) →
      (is_taesd_with_role fp names role = true ↔
        strContains (lowerStr (splitextRoot (basename fp))) (roleWord role) = true)) := by
  have hne : names.isEmpty = false := by
    cases names with
    | nil => exact absurd hfam (by decide)
    | cons a t => rfl
  have hcond : (names.isEmpty || !is_taesd names) = false := by
    rw [hne, hfam]
    rfl
  constructor
  · rintro ⟨k, hk, hc⟩
    have hany : names.any (fun k => strContains k (roleWord role)) = true :=
      List.any_eq_true.mpr ⟨k, hk, hc⟩
    unfold is_taesd_with_role
    rw [hcond, if_neg (by decide), if_pos hany]
  · intro hall
    have hany : names.any (fun k => strContains k (roleWord role)) = false := by
      rw [List.any_eq_false]
      intro k hk
      rw [hall k hk]
      decide
    unfold is_taesd_with_role
    rw [hcond, if_neg (by decide), if_neg (by rw [hany]; decide)]

/-- Witness for C2 at a concrete input: content wins over a filename that
suggests the opposite role. -/
theorem is_taesd_with_role_content_first_witness :
    is_taesd_with_role "dec.safetensors".data ["taesd_encoder.w".data] Role.encoder = true :=
  (is_taesd_with_role_content_first "dec.safetensors".data ["taesd_encoder.w".data]
    Role.encoder (by decide)).1 (by decide)

/-! ### C6: header inspector failure containment -/

/-- C6.  The header inspector returns the empty result in every failure case:
file shorter than eight bytes, declared header length above the size limit, or
failing JSON decode (jk models json.loads returning none when it raises; the
modelled function is total, so no error propagates). -/
theorem get_safetensors_header_failures (jk : List Nat → Option (List Str))
    (file : List Nat) (size_limit : Nat)
    (h : file.length < 8 ∨ size_limit < le64 (file.take 8) ∨
      jk ((file.drop 8).take (le64 (file.take 8))) = none) :
    get_safetensors_header jk file size_limit = [] := by
  unfold get_safetensors_header
  split_ifs with h1 h2
  · rfl
  · rfl
  · rcases h with h | h | h
    · exact absurd h h1
    · exact absurd h h2
    · rw [h]

/-- Witness for C6 at a concrete input: the empty file is below the minimum
header size. -/
theorem get_safetensors_header_failures_witness :
    get_safetensors_header (fun _ => none) [] 0 = [] :=
  get_safetensors_header_failures (fun _ => none) [] 0 (Or.inl (by decide))

/-! ### C10: empty tensor-name set never classifies -/

/-- C10.  With an empty tensor-name set (for example after a failed header
read) the role classifier answers false for every file path and role: the
filename fallback is never consulted. -/
theorem is_taesd_with_role_empty_names (fp : Str) (role : Role) :
    is_taesd_with_role fp [] role = false := rfl

end TLM

namespace TLM

/-! ### C3: prefix resolver -/

/-- C3 counterexample.  With an empty anchor suffix, every key ends with the
suffix and stripping the empty suffix should return the key itself, but the
Python slice key[:-0] makes the resolver return the empty string instead of
the first matching key. -/
theorem get_tensor_prefix_empty_anchor_cex :
    strEndsWith "abc".data ([] : Str) = true ∧
    strContains "abc".data "x".data = false ∧
    get_tensor_prefix ["abc".data] ([] : Str) (some "x".data) = ([] : Str) ∧
    ("abc".data : Str) ≠ ([] : Str) := by decide

/-- C3 amended.  For a nonempty anchor suffix, the resolver returns the first
key (in iteration order) that ends with the suffix and does not contain the
exclusion substring, with the suffix stripped from its end; the empty string
when no such key exists. -/
theorem get_tensor_prefix_first_match (names : List Str) (sfx : Str) (nc : Str)
    (hs : sfx ≠ []) :
    get_tensor_prefix names sfx (some nc) =
      (match names.find? (fun k => strEndsWith k sfx && !strContains k nc) with
       | some k => k.take (k.length - sfx.length)
       | none => []) := by
  have hlen : sfx.length ≠ 0 := fun h0 => hs (List.length_eq_zero.mp h0)
  have hslice : ∀ k : Str, pySliceDropRight k sfx.length = k.take (k.length - sfx.length) := by
    intro k
    unfold pySliceDropRight
    rw [if_neg hlen]
  induction names with
  | nil => rfl
  | cons k rest ih =>
    have hstep : get_tensor_prefix (k :: rest) sfx (some nc) =
        if strEndsWith k sfx = true then
          (if strContains k nc = true then get_tensor_prefix rest sfx (some nc)
           else pySliceDropRight k sfx.length)
        else get_tensor_prefix rest sfx (some nc) := rfl
    rw [hstep]
    by_cases he : strEndsWith k sfx = true
    · by_cases hc : strContains k nc = true
      · have hfb : (strEndsWith k sfx && !strContains k nc) = false := by
          rw [he, hc]
          rfl
        rw [if_pos he, if_pos hc, ih,
          @List.find?_cons_of_neg _ (fun x => strEndsWith x sfx && !strContains x nc) k rest
            (by simp [hfb])]
      · have hfb : (strEndsWith k sfx && !strContains k nc) = true := by
          rw [he, aux_bool_eq_false hc]
          rfl
        rw [if_pos he, if_neg hc,
          @List.find?_cons_of_pos _ (fun x => strEndsWith x sfx && !strContains x nc) k rest hfb,
          hslice]
    · have hfb : (strEndsWith k sfx && !strContains k nc) = false := by
        rw [aux_bool_eq_false he]
        rfl
      rw [if_neg he, ih,
        @List.find?_cons_of_neg _ (fun x => strEndsWith x sfx && !strContains x nc) k rest
          (by simp [hfb])]

/-- Witness for the amended C3 at a concrete input. -/
theorem get_tensor_prefix_first_match_witness :
    get_tensor_prefix ["taesdxl_encoder.3.conv.4.bias".data] ".3.conv.4.bias".data
      (some "decoder".data) = "taesdxl_encoder".data :=
  ( get_tensor_prefix_first_match ["taesdxl_encoder.3.conv.4.bias".data] ".3.conv.4.bias".data
    "decoder".data (by decide)).trans (by decide)

/-! ### String prefix decomposition -/

theorem strStartsWith_iff {s pat : Str} : strStartsWith s pat = true ↔ ∃ t, s = pat ++ t := by
  unfold strStartsWith
  rw [List.isPrefixOf_iff_prefix]
  constructor
  · intro h
    obtain ⟨t, ht⟩ := h
    exact ⟨t, ht.symm⟩
  · rintro ⟨t, rfl⟩
    exact ⟨t, rfl⟩

theorem rekey_inj {p t k1 k2 : Str} (h1 : strStartsWith k1 p = true)
    (h2 : strStartsWith k2 p = true)
    (he : t ++ k1.drop p.length = t ++ k2.drop p.length) : k1 = k2 := by
  obtain ⟨a, rfl⟩ := strStartsWith_iff.mp h1
  obtain ⟨b, rfl⟩ := strStartsWith_iff.mp h2
  rw [List.drop_left, List.drop_left] at he
  rw [List.append_cancel_left he]

/-! ### C4: the loader keeps, strips and re-prefixes exactly the matching keys -/

theorem load_aux (p t : Str) (file : List (Str × Value)) : ∀ acc : TensorSet,
    (∀ kv ∈ file, strStartsWith kv.1 p = true → (t ++ kv.1.drop p.length) ∉ keysOf acc) →
    (file.map Prod.fst).Nodup →
    (file.foldl
      (fun a kv =>
        if strStartsWith kv.1 p then dictInsert a (t ++ kv.1.drop p.length) kv.2 else a)
      acc)
      = acc ++ (file.filter (fun kv => strStartsWith kv.1 p)).map
          (fun kv => (t ++ kv.1.drop p.length, kv.2)) := by
  induction file with
  | nil =>
    intro acc _ _
    simp
  | cons kv rest ih =>
    intro acc hdisj hnd
    rw [List.map_cons] at hnd
    have hnd2 := List.nodup_cons.mp hnd
    rw [List.foldl_cons]
    by_cases hsw : strStartsWith kv.1 p = true
    · rw [if_pos hsw, dictInsert_of_not_mem (hdisj kv (List.mem_cons_self _ _) hsw)]
      rw [ih (acc ++ [(t ++ kv.1.drop p.length, kv.2)]) ?_ hnd2.2]
      · rw [@List.filter_cons_of_pos _ (fun kv2 => strStartsWith kv2.1 p) kv rest hsw,
          List.map_cons, List.append_assoc, List.singleton_append]
      · intro kv2 h2 hsw2
        rw [keysOf_append, List.mem_append]
        rintro (hmem | hmem)
        · exact hdisj kv2 (List.mem_cons_of_mem _ h2) hsw2 hmem
        · have heq : t ++ kv2.1.drop p.length = t ++ kv.1.drop p.length := by
            simpa [keysOf] using hmem
          have hkk : kv2.1 = kv.1 := rekey_inj hsw2 hsw heq
          exact hnd2.1 (hkk ▸ List.mem_map_of_mem Prod.fst h2)
    · rw [if_neg hsw, ih acc (fun kv2 h2 => hdisj kv2 (List.mem_cons_of_mem _ h2)) hnd2.2,
        @List.filter_cons_of_neg _ (fun kv2 => strStartsWith kv2.1 p) kv rest
          (by simp [aux_bool_eq_false hsw])]

/-- C4.  An entry belongs to the loader's output exactly when it comes from a
source entry whose key starts with the normalized source namespace, re-keyed
by stripping that namespace and prepending the normalized target namespace;
keys not starting with the source namespace contribute nothing. -/
theorem load_tensors_mem_iff (file : TensorSet) (pfx tgt : Str)
    (hnd : (keysOf file).Nodup) (k : Str) (v : Value) :
    (k, v) ∈ load_tensors file pfx tgt ↔
      ∃ kv ∈ file, strStartsWith kv.1 (pfxNorm pfx) = true ∧
        k = pfxNorm tgt ++ kv.1.drop (pfxNorm pfx).length ∧ v = kv.2 := by
  unfold load_tensors
  rw [load_aux (pfxNorm pfx) (pfxNorm tgt) file []
    (by intro kv _ _ hmem; simp [keysOf] at hmem) hnd, List.nil_append, List.mem_map]
  constructor
  · rintro ⟨kv, hkv, he⟩
    rw [List.mem_filter] at hkv
    injection he with he1 he2
    exact ⟨kv, hkv.1, hkv.2, he1.symm, he2.symm⟩
  · rintro ⟨kv, hkv, hsw, rfl, rfl⟩
    exact ⟨kv, List.mem_filter.mpr ⟨hkv, hsw⟩, rfl⟩

/-- Witness for C4 at the spec's concrete example: foo.weight is re-keyed to
bar.weight and a non-matching key is dropped. -/
theorem load_tensors_mem_iff_witness :
    ("bar.weight".data, Value.raw 1) ∈
      load_tensors [("foo.weight".data, Value.raw 1), ("other".data, Value.raw 2)]
        "foo".data "bar".data ∧
    ("other".data, Value.raw 2) ∉
      load_tensors [("foo.weight".data, Value.raw 1), ("other".data, Value.raw 2)]
        "foo".data "bar".data :=
  ⟨(load_tensors_mem_iff [("foo.weight".data, Value.raw 1), ("other".data, Value.raw 2)]
      "foo".data "bar".data (by decide) "bar.weight".data (Value.raw 1)).mpr (by decide),
   fun h =>
    absurd ((load_tensors_mem_iff [("foo.weight".data, Value.raw 1), ("other".data, Value.raw 2)]
      "foo".data "bar".data (by decide) "other".data (Value.raw 2)).mp h) (by decide)⟩

end TLM

namespace TLM

/-! ### C5: layer realignment -/

/-- C5 counterexample.  Two distinct keys with the same numeric value of their
layer segment (one written with leading zeros) are re-addressed to the same
key; the dict keeps only the later entry, so the earlier tensor is lost even
though the claim promises that every matching key keeps its tensor value. -/
theorem shift_layers_collision_cex :
    ("dec.8.w".data, Value.raw 1) ∉
      shift_layers [("dec.007.w".data, Value.raw 1), ("dec.7.w".data, Value.raw 2)]
        "dec.".data 1 := by decide

theorem shift_aux (lp : Str) (off : Int) (sd : List (Str × Value)) : ∀ acc : TensorSet,
    (∀ kv ∈ sd, shiftKey lp off kv.1 ∉ keysOf acc) →
    (sd.map Prod.fst).Nodup →
    (∀ k1 ∈ sd.map Prod.fst, ∀ k2 ∈ sd.map Prod.fst,
      shiftKey lp off k1 = shiftKey lp off k2 → k1 = k2) →
    sd.foldl (fun acc kv => dictInsert acc (shiftKey lp off kv.1) kv.2) acc
      = acc ++ sd.map (fun kv => (shiftKey lp off kv.1, kv.2)) := by
  induction sd with
  | nil =>
    intro acc _ _ _
    simp
  | cons kv rest ih =>
    intro acc hdisj hnd hinj
    rw [List.map_cons] at hnd
    have hnd2 := List.nodup_cons.mp hnd
    rw [List.foldl_cons, dictInsert_of_not_mem (hdisj kv (List.mem_cons_self _ _))]
    rw [ih (acc ++ [(shiftKey lp off kv.1, kv.2)]) ?_ hnd2.2 ?_]
    · rw [List.map_cons, List.append_assoc, List.singleton_append]
    · intro kv2 h2
      rw [keysOf_append, List.mem_append]
      rintro (hmem | hmem)
      · exact hdisj kv2 (List.mem_cons_of_mem _ h2) hmem
      · have heq : shiftKey lp off kv2.1 = shiftKey lp off kv.1 := by
          simpa [keysOf] using hmem
        have hm2 : kv2.1 ∈ List.map Prod.fst (kv :: rest) := by
          rw [List.map_cons]
          exact List.mem_cons_of_mem _ (List.mem_map_of_mem Prod.fst h2)
        have hm1 : kv.1 ∈ List.map Prod.fst (kv :: rest) := by
          rw [List.map_cons]
          exact List.mem_cons_self _ _
        have hkk : kv2.1 = kv.1 := hinj kv2.1 hm2 kv.1 hm1 heq
        exact hnd2.1 (hkk ▸ List.mem_map_of_mem Prod.fst h2)
    · intro k1 h1 k2 h2 he
      have hm1 : k1 ∈ List.map Prod.fst (kv :: rest) := by
        rw [List.map_cons]
        exact List.mem_cons_of_mem _ h1
      have hm2 : k2 ∈ List.map Prod.fst (kv :: rest) := by
        rw [List.map_cons]
        exact List.mem_cons_of_mem _ h2
      exact hinj k1 hm1 k2 hm2 he

/-- C5 amended.  For a tensor set with unique keys in which no two distinct
keys are re-addressed to the same key, shift_layers maps each entry pointwise:
a key under the layer namespace whose next dot-separated segment is decimal
gets that segment replaced by its integer value plus the offset (suffix
unchanged, tensor value kept), and every other key passes through unchanged
with its value; the last three conjuncts spell out the per-key rewrite. -/
theorem shift_layers_pointwise (sd : TensorSet) (lp : Str) (off : Int)
    (hnd : (keysOf sd).Nodup)
    (hinj : ∀ k1 ∈ keysOf sd, ∀ k2 ∈ keysOf sd,
      shiftKey lp off k1 = shiftKey lp off k2 → k1 = k2) :
    shift_layers sd lp off = sd.map (fun kv => (shiftKey lp off kv.1, kv.2)) ∧
    (∀ k : Str, strStartsWith k lp = false → shiftKey lp off k = k) ∧
    (∀ k : Str, strStartsWith k lp = true →
      isdecimal (splitFirst (k.drop lp.length)).1 = false → shiftKey lp off k = k) ∧
    (∀ k : Str, strStartsWith k lp = true →
      isdecimal (splitFirst (k.drop lp.length)).1 = true →
      shiftKey lp off k =
        lp ++ intRepr ((pyInt (splitFirst (k.drop lp.length)).1 : Int) + off) ++
          (match (splitFirst (k.drop lp.length)).2 with
           | some r => '.' :: r
           | none => [])) := by
  refine ⟨?_, ?_, ?_, ?_⟩
  · unfold shift_layers
    rw [shift_aux lp off sd [] (by intro kv _ hmem; simp [keysOf] at hmem) hnd hinj,
      List.nil_append]
  · intro k hk
    unfold shiftKey
    rw [if_neg (by simp [hk])]
  · intro k h1 h2
    unfold shiftKey
    rw [if_pos h1, if_neg (by simp [h2])]
  · intro k h1 h2
    unfold shiftKey
    rw [if_pos h1, if_pos h2]

/-- Witness for the amended C5 at the spec's concrete example (plus a
non-numeric segment passing through unchanged). -/
theorem shift_layers_pointwise_witness :
    shift_layers
        [("dec.0.weight".data, Value.raw 1), ("dec.1.bias".data, Value.raw 2),
          ("dec.norm.weight".data, Value.raw 3)] "dec.".data 1
      = [("dec.1.weight".data, Value.raw 1), ("dec.2.bias".data, Value.raw 2),
          ("dec.norm.weight".data, Value.raw 3)] :=
  ((shift_layers_pointwise
      [("dec.0.weight".data, Value.raw 1), ("dec.1.bias".data, Value.raw 2),
        ("dec.norm.weight".data, Value.raw 3)] "dec.".data 1
      (by decide) (by decide)).1).trans (by decide)

/-! ### C8: auxiliary layer injection -/

/-- C8 counterexample.  The bridge injection overwrites an existing entry at
its target key, so the given set's existing entries are not always left
unchanged (in the source the update additionally happens in place on the
caller's dict via dict.update rather than by returning a new set). -/
theorem insert_xbridge_overwrite_cex :
    ("transx.gaussian_blur_sigma".data, Value.raw 0) ∉
      insert_xbridge_layer [("transx.gaussian_blur_sigma".data, Value.raw 0)] 1
        XBRIDGE_NS Dtype.f32 := by decide

/-- C8 amended.  Each injector yields (as the updated dict state) the given
set extended with its constant entries: the bridge scalar, or the scale and
shift pair; every entry whose key is not an injected target key is preserved
exactly, and an existing entry at a target key is overwritten. -/
theorem insert_layers_frame (sd : TensorSet) (sigma scale shift : ℚ) (tp : Str) (dt : Dtype) :
    ((tp ++ "gaussian_blur_sigma".data, Value.arr dt [sigma]) ∈
      insert_xbridge_layer sd sigma tp dt) ∧
    (∀ k v, k ≠ tp ++ "gaussian_blur_sigma".data →
      ((k, v) ∈ insert_xbridge_layer sd sigma tp dt ↔ (k, v) ∈ sd)) ∧
    ((tp ++ "scale_factor".data, Value.arr dt [scale]) ∈
      insert_emulation_layer sd scale shift tp dt) ∧
    ((tp ++ "shift_factor".data, Value.arr dt [shift]) ∈
      insert_emulation_layer sd scale shift tp dt) ∧
    (∀ k v, k ≠ tp ++ "scale_factor".data → k ≠ tp ++ "shift_factor".data →
      ((k, v) ∈ insert_emulation_layer sd scale shift tp dt ↔ (k, v) ∈ sd)) := by
  have hkeys : tp ++ "scale_factor".data ≠ tp ++ "shift_factor".data := by
    intro h
    exact absurd (List.append_cancel_left h) (by decide)
  refine ⟨?_, ?_, ?_, ?_, ?_⟩
  · unfold insert_xbridge_layer
    exact self_mem_dictInsert _ _ _
  · intro k v hne
    unfold insert_xbridge_layer
    exact mem_dictInsert_of_ne hne
  · unfold insert_emulation_layer
    rw [mem_dictInsert_of_ne hkeys]
    exact self_mem_dictInsert _ _ _
  · unfold insert_emulation_layer
    exact self_mem_dictInsert _ _ _
  · intro k v h1 h2
    unfold insert_emulation_layer
    rw [mem_dictInsert_of_ne h2, mem_dictInsert_of_ne h1]

/-- Witness for the amended C8 at a concrete input: an unrelated entry is
preserved by the bridge injection. -/
theorem insert_layers_frame_witness :
    ("a".data, Value.raw 7) ∈
      insert_xbridge_layer [("a".data, Value.raw 7)] 1 XBRIDGE_NS Dtype.f32 :=
  ((insert_layers_frame [("a".data, Value.raw 7)] 1 0 0 XBRIDGE_NS Dtype.f32).2.1
    "a".data (Value.raw 7) (by decide)).mpr (by decide)

end TLM

namespace TLM

/-! ### C7: end-to-end assembly -/

/-- C7.  With the encoder source holding taesdxl_encoder.3.conv.4.bias (family
via name stem, role encoder) and the decoder source holding the two
decoder.layers fingerprint keys (family via diffusers convention, role
decoder), the assembler with emulation enabled and no blur sigma yields a
tensor set with transe.- and transd.-prefixed keys, in_emu and out_emu
scale/shift entries equal to the input and output format table pairs, and no
transx.-prefixed key, for every choice of input and output latent format. -/
theorem build_tiny_transcoder_end_to_end (fin fout : LatentFormat) :
    is_taesd_with_role "enc.safetensors".data (keysOf c7EncFile) Role.encoder = true ∧
    is_taesd_with_role "dec.safetensors".data (keysOf c7DecFile) Role.decoder = true ∧
    (∃ k ∈ keysOf (c7Result fin fout), strStartsWith k ENCODER_NS = true) ∧
    (∃ k ∈ keysOf (c7Result fin fout), strStartsWith k DECODER_NS = true) ∧
    ("in_emu.scale_factor".data,
      Value.arr Dtype.f32 [(SCALE_AND_SHIFT_BY_LATENT_FORMAT fin).1]) ∈ c7Result fin fout ∧
    ("in_emu.shift_factor".data,
      Value.arr Dtype.f32 [(SCALE_AND_SHIFT_BY_LATENT_FORMAT fin).2]) ∈ c7Result fin fout ∧
    ("out_emu.scale_factor".data,
      Value.arr Dtype.f32 [(SCALE_AND_SHIFT_BY_LATENT_FORMAT fout).1]) ∈ c7Result fin fout ∧
    ("out_emu.shift_factor".data,
      Value.arr Dtype.f32 [(SCALE_AND_SHIFT_BY_LATENT_FORMAT fout).2]) ∈ c7Result fin fout ∧
    (∀ k ∈ keysOf (c7Result fin fout), strStartsWith k XBRIDGE_NS = false) := by
  cases fin <;> cases fout <;> decide

end TLM

namespace TLM

/-! ### C9: the assembled set never contains transd.0.weight -/

theorem decDigitsAux_head (fuel : Nat) : ∀ n : Nat, n < fuel → 1 ≤ n →
    ∃ c cs, decDigitsAux fuel n = c :: cs ∧ c ≠ '0' := by
  induction fuel with
  | zero =>
    intro n hf _
    omega
  | succ m ih =>
    intro n hf h1
    by_cases h10 : n < 10
    · refine ⟨Char.ofNat (48 + n), [], ?_, ?_⟩
      · show decDigitsAux (m + 1) n = _
        simp only [decDigitsAux]
        rw [if_pos h10]
      · interval_cases n <;> decide
    · have hlt : n / 10 < n := Nat.div_lt_self (by omega) (by omega)
      have hm : n / 10 < m := by omega
      have h1d : 1 ≤ n / 10 := by
        have h2 : 10 / 10 ≤ n / 10 := Nat.div_le_div_right (by omega)
        simpa using h2
      obtain ⟨c, cs, he, hc⟩ := ih (n / 10) hm h1d
      refine ⟨c, cs ++ [Char.ofNat (48 + n % 10)], ?_, hc⟩
      show decDigitsAux (m + 1) n = _
      simp only [decDigitsAux]
      rw [if_neg h10, he]
      rfl

theorem intRepr_succ_head (n : Nat) :
    ∃ c cs, intRepr ((n : Int) + 1) = c :: cs ∧ c ≠ '0' := by
  unfold intRepr
  rw [if_neg (by omega)]
  have ht : ((n : Int) + 1).toNat = n + 1 := by omega
  rw [ht]
  unfold decRepr
  exact decDigitsAux_head (n + 2) (n + 1) (by omega) (by omega)

theorem shiftKey_ne_transd0 (k : Str) :
    shiftKey DECODER_NS 1 k ≠ "transd.0.weight".data := by
  intro hEq
  unfold shiftKey at hEq
  by_cases hs : strStartsWith k DECODER_NS = true
  · rw [if_pos hs] at hEq
    by_cases hd : isdecimal (splitFirst (k.drop DECODER_NS.length)).1 = true
    · rw [if_pos hd] at hEq
      have htar : ("transd.0.weight".data : Str) = DECODER_NS ++ ('0' :: ".weight".data) := by
        decide
      rw [htar, List.append_assoc] at hEq
      have h2 := List.append_cancel_left hEq
      obtain ⟨c, cs, he, hc⟩ :=
        intRepr_succ_head (pyInt (splitFirst (k.drop DECODER_NS.length)).1)
      rw [he, List.cons_append] at h2
      injection h2 with hc0 _
      exact hc hc0
    · rw [if_neg hd] at hEq
      subst hEq
      exact hd (by decide)
  · rw [if_neg hs] at hEq
    subst hEq
    exact hs (by decide)

theorem mem_keysOf_shift_aux (lp : Str) (off : Int) (sd : List (Str × Value)) :
    ∀ (acc : TensorSet) (m : Str),
      m ∈ keysOf (sd.foldl (fun acc kv => dictInsert acc (shiftKey lp off kv.1) kv.2) acc) →
      m ∈ keysOf acc ∨ ∃ kv ∈ sd, shiftKey lp off kv.1 = m := by
  induction sd with
  | nil =>
    intro acc m h
    exact Or.inl h
  | cons kv rest ih =>
    intro acc m h
    rw [List.foldl_cons] at h
    rcases ih (dictInsert acc (shiftKey lp off kv.1) kv.2) m h with h1 | ⟨kv2, h2, he⟩
    · rcases mem_keysOf_dictInsert.mp h1 with h3 | h3
      · exact Or.inl h3
      · exact Or.inr ⟨kv, List.mem_cons_self _ _, h3.symm⟩
    · exact Or.inr ⟨kv2, List.mem_cons_of_mem _ h2, he⟩

theorem mem_keysOf_shift_layers {sd : TensorSet} {lp : Str} {off : Int} {m : Str}
    (h : m ∈ keysOf (shift_layers sd lp off)) :
    ∃ kv ∈ sd, shiftKey lp off kv.1 = m := by
  rcases mem_keysOf_shift_aux lp off sd [] m h with h1 | h2
  · simp [keysOf] at h1
  · exact h2

theorem keysOf_map_astype (d : TensorSet) (dt : Dtype) :
    keysOf (d.map (fun kv => (kv.1, astype dt kv.2))) = keysOf d := by
  unfold keysOf
  rw [List.map_map]
  apply List.map_congr_left
  intro p _
  rfl

theorem mem_keysOf_emulation {d : TensorSet} {a b : ℚ} {tp : Str} {dt : Dtype} {m : Str}
    (h : m ∈ keysOf (insert_emulation_layer d a b tp dt)) :
    m ∈ keysOf d ∨ m = tp ++ "scale_factor".data ∨ m = tp ++ "shift_factor".data := by
  unfold insert_emulation_layer at h
  rcases mem_keysOf_dictInsert.mp h with h1 | h1
  · rcases mem_keysOf_dictInsert.mp h1 with h2 | h2
    · exact Or.inl h2
    · exact Or.inr (Or.inl h2)
  · exact Or.inr (Or.inr h1)

theorem mem_keysOf_xbridge {d : TensorSet} {s : ℚ} {tp : Str} {dt : Dtype} {m : Str}
    (h : m ∈ keysOf (insert_xbridge_layer d s tp dt)) :
    m ∈ keysOf d ∨ m = tp ++ "gaussian_blur_sigma".data := by
  unfold insert_xbridge_layer at h
  exact mem_keysOf_dictInsert.mp h

/-- C9.  For every pair of source tensor sets and every assembler
configuration, the built tensor set never contains the key transd.0.weight:
if present after merging, the +1 shift re-addresses every decimal-indexed
transd. layer to a strictly positive index (a positive integer renders with a
nonzero leading digit), and the bridge, emulation and dtype steps only add
transx., in_emu. and out_emu. keys or retag values. -/
theorem build_never_contains_transd0 (encFile : TensorSet) (ep : Str) (decFile : TensorSet)
    (dp : Str) (fin fout : LatentFormat) (blur : Option ℚ) (emu : Bool)
    (dt : Option Dtype) :
    "transd.0.weight".data ∉
      keysOf (build_tiny_transcoder encFile ep decFile dp fin fout blur emu dt) := by
  simp only [build_tiny_transcoder]
  set t0 := pyDictMerge (load_tensors encFile ep ENCODER_NS)
    (load_tensors decFile dp DECODER_NS) with ht0
  set E1 := (if (DECODER_NS ++ "0.weight".data) ∈ keysOf t0 then
    shift_layers t0 DECODER_NS 1 else t0) with hE1def
  have h1 : "transd.0.weight".data ∉ keysOf E1 := by
    rw [hE1def]
    by_cases hc : (DECODER_NS ++ "0.weight".data) ∈ keysOf t0
    · rw [if_pos hc]
      intro hm
      obtain ⟨kv, _, he⟩ := mem_keysOf_shift_layers hm
      exact shiftKey_ne_transd0 kv.1 he
    · rw [if_neg hc]
      intro hm
      apply hc
      have heq : DECODER_NS ++ "0.weight".data = "transd.0.weight".data := by decide
      rw [heq]
      exact hm
  set E2 := (match blur with
    | some s => if s = 0 then E1 else insert_xbridge_layer E1 s XBRIDGE_NS Dtype.f32
    | none => E1) with hE2def
  have h2 : "transd.0.weight".data ∉ keysOf E2 := by
    rw [hE2def]
    cases blur with
    | none => exact h1
    | some s =>
      show "transd.0.weight".data ∉
        keysOf (if s = 0 then E1 else insert_xbridge_layer E1 s XBRIDGE_NS Dtype.f32)
      by_cases hs0 : s = 0
      · rw [if_pos hs0]
        exact h1
      · rw [if_neg hs0]
        intro hm
        rcases mem_keysOf_xbridge hm with h | h
        · exact h1 h
        · exact absurd h (by decide)
  set E3 := (if emu then
    insert_emulation_layer
      (insert_emulation_layer E2 (SCALE_AND_SHIFT_BY_LATENT_FORMAT fin).1
        (SCALE_AND_SHIFT_BY_LATENT_FORMAT fin).2 IN_EMU_NS Dtype.f32)
      (SCALE_AND_SHIFT_BY_LATENT_FORMAT fout).1
      (SCALE_AND_SHIFT_BY_LATENT_FORMAT fout).2 OUT_EMU_NS Dtype.f32
    else E2) with hE3def
  have h3 : "transd.0.weight".data ∉ keysOf E3 := by
    rw [hE3def]
    cases emu
    · rw [if_neg (by decide)]
      exact h2
    · rw [if_pos rfl]
      intro hm
      rcases mem_keysOf_emulation hm with h | h | h
      · rcases mem_keysOf_emulation h with h4 | h4 | h4
        · exact h2 h4
        · exact absurd h4 (by decide)
        · exact absurd h4 (by decide)
      · exact absurd h (by decide)
      · exact absurd h (by decide)
  cases dt with
  | none => exact h3
  | some dtv =>
    rw [keysOf_map_astype]
    exact h3

end TLM
